import Mathlib

/-!
# Verification of the `ttlcache` sharded TTL cache

Shallow embedding of the Go package `ttlcache` (file `ttlcache.go`, the
one-map layout). A namespace (`masterKey`) holds 256 partitions
(`ttlManagement`); each partition owns a map from key to entry (`data`)
and a live-entry counter `keys`. `Write` inserts below capacity,
`Read` looks up without checking expiration, and `expire` is the
periodic sweep that removes entries whose TTL has passed.

Go maps are modelled as association lists over a key type `K` with
decidable equality; time instants and durations (`time.Time`,
`time.Duration`) are modelled as integers, with `time.Since(t) = now - t`.
`Write` returns `Option` because indexing `k[0]` of an empty serialized
key panics in Go.
-/

set_option linter.dupNamespace false
set_option linter.unusedSectionVars false
set_option linter.unusedTactic false
set_option linter.unusedVariables false

namespace ttlcache

/-- The byte sequence produced by the caller-supplied `KeyToByte`
serializer (`ttlFunctions.KeyToByte`). -/
abbrev Bytes := List Nat

/-- Go struct `data`: one cache entry, holding the insertion time
`setTime`, the time-to-live `ttl`, and the stored value `data`. -/
structure data (V : Type) where
  setTime : Int
  ttl : Int
  data : V
deriving DecidableEq

/-- Go map lookup `m[key]` on an association list: the value bound to
the first occurrence of `key`, `none` when absent (the Go code compares
the looked-up pointer against `nil`). -/
def lookupKey {K V : Type} [DecidableEq K] (key : K) : List (K × V) → Option V
  | [] => none
  | (k, v) :: rest => if k = key then some v else lookupKey key rest

/-- Go map assignment `m[key] = v`: overwrite the binding of `key` when
present, append it otherwise. -/
def insertKey {K V : Type} [DecidableEq K] (key : K) (v : V) : List (K × V) → List (K × V)
  | [] => [(key, v)]
  | (k, w) :: rest => if k = key then (key, v) :: rest else (k, w) :: insertKey key v rest

/-- Go map deletion `delete(m, key)`: remove every binding of `key`
(at most one in a well-formed map). -/
def eraseKey {K V : Type} [DecidableEq K] (key : K) : List (K × V) → List (K × V)
  | [] => []
  | (k, w) :: rest => if k = key then eraseKey key rest else (k, w) :: eraseKey key rest

/-- A well-formed Go map binds each key at most once. -/
def nodupKeys {K V : Type} (l : List (K × V)) : Prop := (l.map Prod.fst).Nodup

instance {K V : Type} [DecidableEq K] (l : List (K × V)) : Decidable (nodupKeys l) := by
  unfold nodupKeys; infer_instance

/-- Go struct `ttlManagement`: one of the 256 partitions — its key/entry
map `dataSets` and its registered-key counter `keys` (a Go `int`,
modelled as `Int`). The `sync.RWMutex` has no sequential content. -/
structure ttlManagement (K V : Type) where
  dataSets : List (K × data V)
  keys : Int
deriving DecidableEq

/-- Go struct `mainData`: one namespace — the caller-supplied serializer
`functions` and the array `data` of 256 partitions, indexed by the first
byte of the serialized key. -/
structure mainData (K V : Type) where
  functions : K → Bytes
  data : Nat → ttlManagement K V

/-- `InitCache entries masterKey k` constructs a `mainData` with 256
empty partitions; the capacity `entries` goes into the `masterSize`
registry, which we model as the explicit `entries` parameter of
`Write` and `Reachable`. -/
def InitCache (K V : Type) (k : K → Bytes) : mainData K V :=
  { functions := k, data := fun _ => { dataSets := [], keys := 0 } }

/-- Result of `Read`: the copied value, or the `errKeyNotFound` error. -/
inductive ReadResult (V : Type) where
  | ok (v : V)
  | keyNotFound
deriving DecidableEq

/-- Go `Read(key, masterKey)`: serialize the key; an empty serialization
returns `errKeyNotFound`; otherwise look the key up in partition `k[0]`
and return the stored value when the entry pointer is non-nil. The
expiration re-check is commented out in the source (approximate TTL),
so no time is consulted. -/
def Read {K V : Type} [DecidableEq K] (z : mainData K V) (key : K) : ReadResult V :=
  match z.functions key with
  | [] => .keyNotFound
  | b :: _ =>
    match lookupKey key (z.data b).dataSets with
    | some v => .ok v.data
    | none => .keyNotFound

/-- Body of Go `Write` once the partition `n` is fixed: if the counter
is below the capacity `entries`, store the entry with `setTime = now`
and increment `keys` (unconditionally); otherwise do nothing. -/
def writePart {K V : Type} [DecidableEq K] (now entries : Int) (key : K) (value : V)
    (ttl : Int) (n : ttlManagement K V) : ttlManagement K V :=
  if n.keys < entries then
    { dataSets := insertKey key { setTime := now, ttl := ttl, data := value } n.dataSets,
      keys := n.keys + 1 }
  else n

/-- Go `Write(key, value, ttl, masterKey)`: serialize the key and index
partition `k[0]` — there is no empty-serialization guard, so an empty
byte sequence makes `k[0]` panic, modelled as `none`. Otherwise mutate
that partition via `writePart` under its lock. `entries` is
`masterSize[masterKey]`. -/
def Write {K V : Type} [DecidableEq K] (now entries : Int) (z : mainData K V) (key : K)
    (value : V) (ttl : Int) : Option (mainData K V) :=
  match z.functions key with
  | [] => none
  | b :: _ =>
    some { z with
           data := Function.update z.data b (writePart now entries key value ttl (z.data b)) }

/-- The sweep's expiration test `time.Since(t.setTime) > t.ttl`, i.e.
`now - setTime > ttl`, on one key/entry binding. -/
def isExpired {K V : Type} (now : Int) (p : K × data V) : Bool :=
  now - p.2.setTime > p.2.ttl

/-- Phase 1 of one `expire` iteration, restricted to one partition: the
keys `q` whose entry satisfies the expiration test, collected into
`expiredData`. -/
def expiredKeys {K V : Type} (now : Int) (l : List (K × data V)) : List K :=
  (l.filter (isExpired now)).map Prod.fst

/-- Phase 2 of one `expire` iteration, restricted to one partition:
delete each collected key from the map and decrement `keys` once per
collected key, in order. -/
def deleteKeys {K V : Type} [DecidableEq K] (ks : List K) (n : ttlManagement K V) :
    ttlManagement K V :=
  ks.foldl (fun m k => { dataSets := eraseKey k m.dataSets, keys := m.keys - 1 }) n

/-- One `expire` iteration on one partition: collect the expired keys,
then delete them. -/
def sweepPart {K V : Type} [DecidableEq K] (now : Int) (n : ttlManagement K V) :
    ttlManagement K V :=
  deleteKeys (expiredKeys now n.dataSets) n

/-- One iteration of the Go `expire` goroutine at time `now` on one
namespace: every partition has its expired entries collected and then
deleted. In the sequential model the global scan-all-then-delete-all of
the source equals this per-partition composition, because each
partition's scan and deletions touch only that partition. -/
def expire {K V : Type} [DecidableEq K] (now : Int) (z : mainData K V) : mainData K V :=
  { z with data := fun b => sweepPart now (z.data b) }

/-- Phase 2 of one `expire` iteration on its own: delete the keys `ks`
collected earlier from partition `b` of namespace `z`. The source
deletes each collected key under the exclusive lock without re-checking
its deadline, so `z` here may already differ from the namespace the
scan saw. -/
def deletePhase {K V : Type} [DecidableEq K] (ks : List K) (b : Nat) (z : mainData K V) :
    mainData K V :=
  { z with data := Function.update z.data b (deleteKeys ks (z.data b)) }

/-- States of one namespace with capacity `entries` reachable from
`InitCache` by `Write` calls and `expire` iterations. -/
inductive Reachable {K V : Type} [DecidableEq K] (entries : Int) : mainData K V → Prop
  | init (k : K → Bytes) : Reachable entries (InitCache K V k)
  | write (s s' : mainData K V) (now : Int) (key : K) (value : V) (ttl : Int) :
      Reachable entries s → Write now entries s key value ttl = some s' →
      Reachable entries s'
  | sweep (s : mainData K V) (now : Int) :
      Reachable entries s → Reachable entries (expire now s)

/-- The map component of the delete phase: erase the collected keys in
order. -/
def eraseAll {K A : Type} [DecidableEq K] (ks : List K) (l : List (K × A)) : List (K × A) :=
  ks.foldl (fun acc k => eraseKey k acc) l

/-- Invariant of one namespace with capacity `entries`: every
partition's map is well-formed, its size never exceeds the
registered-key counter `keys`, and `keys` never exceeds the capacity
(clamped at zero, since a negative capacity admits no write at all). -/
def Inv {K V : Type} (entries : Int) (z : mainData K V) : Prop :=
  ∀ b : Nat,
    nodupKeys (z.data b).dataSets ∧
    ((z.data b).dataSets.length : Int) ≤ (z.data b).keys ∧
    (z.data b).keys ≤ max entries 0

/-! ## Concrete namespaces used to instantiate the theorems -/

/-- A serializer sending every `Nat` key to the one-byte sequence `[0]`. -/
def ser0 : Nat → Bytes := fun _ => [0]

/-- A serializer sending every `Nat` key to partition 5, as in the
spec's overflow scenario. -/
def ser5 : Nat → Bytes := fun _ => [5]

/-- A degenerate serializer yielding the empty byte sequence for every
key (the malformed-key case of the spec). -/
def serE : Nat → Bytes := fun _ => []

/-- Empty namespace over `ser0`, capacity 2 in the claims below. -/
def c1s0 : mainData Nat Nat := InitCache Nat Nat ser0

/-- `c1s0` after `Write(key 1, value 10, ttl 100)` at time 0 with
capacity 2. -/
def c1s1 : mainData Nat Nat :=
  { c1s0 with data := Function.update c1s0.data 0 (writePart 0 2 1 10 100 (c1s0.data 0)) }

/-- `c1s1` after overwriting key 1 with value 20 at time 5: the map
still has one entry but the counter is 2. -/
def c1s2 : mainData Nat Nat :=
  { c1s1 with data := Function.update c1s1.data 0 (writePart 5 2 1 20 100 (c1s1.data 0)) }

/-- Empty namespace over `ser5`, capacity 2 in the claims below. -/
def c6s0 : mainData Nat Nat := InitCache Nat Nat ser5

/-- `c6s0` after `Write(key 1, value 11, ttl 100)` at time 0. -/
def c6s1 : mainData Nat Nat :=
  { c6s0 with data := Function.update c6s0.data 5 (writePart 0 2 1 11 100 (c6s0.data 5)) }

/-- `c6s1` after `Write(key 2, value 22, ttl 100)` at time 1: partition
5 is now at capacity 2. -/
def c6s2 : mainData Nat Nat :=
  { c6s1 with data := Function.update c6s1.data 5 (writePart 1 2 2 22 100 (c6s1.data 5)) }

/-- `c1s1` after overwriting key 1 with value 99 and ttl 50 at time
205, between a sweep's scan and delete phases. -/
def c10s2 : mainData Nat Nat :=
  { c1s1 with data := Function.update c1s1.data 0 (writePart 205 2 1 99 50 (c1s1.data 0)) }

/-- A namespace whose serializer is degenerate while partition 0 does
hold a binding for key 1. -/
def c9s : mainData Nat Nat :=
  { functions := serE,
    data := Function.update (fun _ => { dataSets := [], keys := 0 }) 0
      { dataSets := [(1, { setTime := 0, ttl := 100, data := 42 })], keys := 1 } }

/-! ## Association-list lemmas -/

section MapLemmas

variable {K A : Type} [DecidableEq K]

theorem lookupKey_eq_none {key : K} {l : List (K × A)} :
    lookupKey key l = none ↔ key ∉ l.map Prod.fst := by
  induction l with
  | nil => simp [lookupKey]
  | cons p rest ih =>
    obtain ⟨k, v⟩ := p
    by_cases hk : k = key
    · subst hk; simp [lookupKey]
    · simp [lookupKey, hk, ih, Ne.symm hk]

theorem lookupKey_insertKey_self (key : K) (v : A) (l : List (K × A)) :
    lookupKey key (insertKey key v l) = some v := by
  induction l with
  | nil => simp [insertKey, lookupKey]
  | cons p rest ih =>
    obtain ⟨k, w⟩ := p
    by_cases hk : k = key
    · simp [insertKey, hk, lookupKey]
    · simp [insertKey, hk, lookupKey, ih]

theorem mem_fst_insertKey {a key : K} {v : A} {l : List (K × A)}
    (h : a ∈ (insertKey key v l).map Prod.fst) : a = key ∨ a ∈ l.map Prod.fst := by
  induction l with
  | nil => simpa [insertKey] using h
  | cons p rest ih =>
    obtain ⟨k, w⟩ := p
    by_cases hk : k = key
    · subst hk
      simpa [insertKey] using h
    · simp only [insertKey, hk, if_false, List.map_cons, List.mem_cons] at h
      rcases h with h | h
      · right; simp [h]
      · rcases ih h with h' | h'
        · left; exact h'
        · right; simp [h']

theorem nodupKeys_insertKey {key : K} {v : A} {l : List (K × A)}
    (h : nodupKeys l) : nodupKeys (insertKey key v l) := by
  induction l with
  | nil => simp [insertKey, nodupKeys]
  | cons p rest ih =>
    obtain ⟨k, w⟩ := p
    simp only [nodupKeys, List.map_cons, List.nodup_cons] at h
    by_cases hk : k = key
    · subst hk
      simpa [insertKey, nodupKeys] using h
    · have tail := ih h.2
      simp only [insertKey, hk, if_false]
      simp only [nodupKeys, List.map_cons, List.nodup_cons]
      refine ⟨fun hmem => ?_, tail⟩
      rcases mem_fst_insertKey hmem with h' | h'
      · exact hk h'
      · exact h.1 h'

theorem length_insertKey_le (key : K) (v : A) (l : List (K × A)) :
    (insertKey key v l).length ≤ l.length + 1 := by
  induction l with
  | nil => simp [insertKey]
  | cons p rest ih =>
    obtain ⟨k, w⟩ := p
    by_cases hk : k = key
    · simp [insertKey, hk]
    · simp only [insertKey, hk, if_false, List.length_cons]
      omega

theorem eraseKey_sublist (key : K) (l : List (K × A)) : (eraseKey key l).Sublist l := by
  induction l with
  | nil => simp [eraseKey]
  | cons p rest ih =>
    obtain ⟨k, w⟩ := p
    by_cases hk : k = key
    · simp only [eraseKey, hk, if_true]
      exact ih.trans (List.sublist_cons_self _ _)
    · simp only [eraseKey, hk, if_false]
      exact ih.cons₂ _

theorem nodupKeys_eraseKey {key : K} {l : List (K × A)} (h : nodupKeys l) :
    nodupKeys (eraseKey key l) := by
  exact List.Nodup.sublist ((eraseKey_sublist key l).map Prod.fst) h

theorem lookupKey_eraseKey_self (key : K) (l : List (K × A)) :
    lookupKey key (eraseKey key l) = none := by
  induction l with
  | nil => simp [eraseKey, lookupKey]
  | cons p rest ih =>
    obtain ⟨k, w⟩ := p
    by_cases hk : k = key
    · simp [eraseKey, hk, ih]
    · simp [eraseKey, hk, lookupKey, ih]

theorem lookupKey_eraseKey_none {a key : K} {l : List (K × A)}
    (h : lookupKey a l = none) : lookupKey a (eraseKey key l) = none := by
  rw [lookupKey_eq_none] at h ⊢
  intro hmem
  exact h (((eraseKey_sublist key l).map Prod.fst).mem hmem)

theorem eraseKey_of_not_mem {key : K} {l : List (K × A)}
    (h : key ∉ l.map Prod.fst) : eraseKey key l = l := by
  induction l with
  | nil => simp [eraseKey]
  | cons p rest ih =>
    obtain ⟨k, w⟩ := p
    simp only [List.map_cons, List.mem_cons] at h
    push_neg at h
    have hk : ¬ k = key := fun hk => h.1 hk.symm
    simp [eraseKey, hk, ih h.2]

end MapLemmas

/-! ## Sweep lemmas: the delete phase removes exactly the collected keys -/

section SweepLemmas

variable {K V A : Type} [DecidableEq K]

theorem eraseAll_nil (l : List (K × A)) : eraseAll [] l = l := rfl

theorem eraseAll_cons (k : K) (ks : List K) (l : List (K × A)) :
    eraseAll (k :: ks) l = eraseAll ks (eraseKey k l) := rfl

/-- `deleteKeys` erases the collected keys from the map and decrements
the counter once per collected key. -/
theorem deleteKeys_eq (ks : List K) (n : ttlManagement K V) :
    deleteKeys ks n = { dataSets := eraseAll ks n.dataSets, keys := n.keys - ks.length } := by
  induction ks generalizing n with
  | nil => simp [deleteKeys, eraseAll]
  | cons k ks ih =>
    simp only [deleteKeys, List.foldl_cons] at *
    rw [ih]
    simp only [eraseAll_cons, List.length_cons]
    congr 1
    push_cast
    ring

theorem lookupKey_eraseAll_none {a : K} {ks : List K} {l : List (K × A)}
    (h : lookupKey a l = none) : lookupKey a (eraseAll ks l) = none := by
  induction ks generalizing l with
  | nil => simpa [eraseAll_nil] using h
  | cons k ks ih =>
    rw [eraseAll_cons]
    exact ih (lookupKey_eraseKey_none h)

theorem lookupKey_eraseAll_of_mem {a : K} {ks : List K} (l : List (K × A))
    (h : a ∈ ks) : lookupKey a (eraseAll ks l) = none := by
  induction ks generalizing l with
  | nil => cases h
  | cons k ks ih =>
    rw [eraseAll_cons]
    rcases List.mem_cons.mp h with h | h
    · subst h
      exact lookupKey_eraseAll_none (lookupKey_eraseKey_self a l)
    · exact ih _ h

theorem eraseAll_cons_not_mem {k : K} {ks : List K} {v : A} {l : List (K × A)}
    (h : k ∉ ks) : eraseAll ks ((k, v) :: l) = (k, v) :: eraseAll ks l := by
  induction ks generalizing l with
  | nil => simp [eraseAll_nil]
  | cons k' ks ih =>
    simp only [List.mem_cons] at h
    push_neg at h
    have hk : ¬ k = k' := h.1
    rw [eraseAll_cons, eraseKey, if_neg hk, ih h.2, eraseAll_cons]

theorem mem_expiredKeys {a : K} {now : Int} {l : List (K × data V)}
    (h : a ∈ expiredKeys now l) : a ∈ l.map Prod.fst := by
  simp only [expiredKeys, List.mem_map] at h
  obtain ⟨p, hp, rfl⟩ := h
  exact List.mem_map_of_mem _ (List.mem_of_mem_filter hp)

/-- The delete phase applied to the scan's own collection turns the map
into its non-expired entries: exactly the expired bindings are removed. -/
theorem eraseAll_expiredKeys {now : Int} {l : List (K × data V)} (h : nodupKeys l) :
    eraseAll (expiredKeys now l) l = l.filter (fun p => ! isExpired now p) := by
  induction l with
  | nil => simp [expiredKeys, eraseAll_nil]
  | cons p rest ih =>
    obtain ⟨k, v⟩ := p
    simp only [nodupKeys, List.map_cons, List.nodup_cons] at h
    cases hexp : isExpired now (k, v) with
    | true =>
      have hcol : expiredKeys now ((k, v) :: rest) = k :: expiredKeys now rest := by
        simp [expiredKeys, List.filter_cons, hexp]
      rw [hcol, eraseAll_cons, eraseKey, if_pos rfl,
        eraseKey_of_not_mem h.1, ih h.2, List.filter_cons]
      simp [hexp]
    | false =>
      have hcol : expiredKeys now ((k, v) :: rest) = expiredKeys now rest := by
        simp [expiredKeys, List.filter_cons, hexp]
      have hnot : k ∉ expiredKeys now rest := fun hmem => h.1 (mem_expiredKeys hmem)
      rw [hcol, eraseAll_cons_not_mem hnot, ih h.2, List.filter_cons]
      simp [hexp]

theorem length_expiredKeys (now : Int) (l : List (K × data V)) :
    (expiredKeys now l).length = (l.filter (isExpired now)).length := by
  simp [expiredKeys]

/-- Characterization of one sweep pass on one partition with a
well-formed map. -/
theorem sweepPart_spec (now : Int) {n : ttlManagement K V} (h : nodupKeys n.dataSets) :
    (sweepPart now n).dataSets = n.dataSets.filter (fun p => ! isExpired now p) ∧
    (sweepPart now n).keys = n.keys - (n.dataSets.filter (isExpired now)).length := by
  rw [sweepPart, deleteKeys_eq]
  exact ⟨eraseAll_expiredKeys h, by simp [length_expiredKeys]⟩

theorem lookupKey_filter_none {key : K} {l : List (K × A)} {q : K × A → Bool}
    (hnd : nodupKeys l) {d : A} (hl : lookupKey key l = some d) (hq : q (key, d) = false) :
    lookupKey key (l.filter q) = none := by
  induction l with
  | nil => simp [lookupKey] at hl
  | cons p rest ih =>
    obtain ⟨k, w⟩ := p
    simp only [nodupKeys, List.map_cons, List.nodup_cons] at hnd
    by_cases hk : k = key
    · subst hk
      rw [lookupKey, if_pos rfl] at hl
      obtain rfl : w = d := by injection hl
      have hrest : lookupKey k rest = none := lookupKey_eq_none.mpr hnd.1
      rw [List.filter_cons, hq]
      simp only [Bool.false_eq_true, if_false]
      rw [lookupKey_eq_none] at hrest ⊢
      intro hmem
      exact hrest (((List.filter_sublist rest).map Prod.fst).mem hmem)
    · rw [lookupKey, if_neg hk] at hl
      have tail := ih hnd.2 hl
      rw [List.filter_cons]
      cases hkeep : q (k, w) with
      | true => simpa [lookupKey, hk] using tail
      | false => simpa using tail

theorem lookupKey_filter_some {key : K} {l : List (K × A)} {q : K × A → Bool}
    {d : A} (hl : lookupKey key l = some d) (hq : q (key, d) = true) :
    lookupKey key (l.filter q) = some d := by
  induction l with
  | nil => simp [lookupKey] at hl
  | cons p rest ih =>
    obtain ⟨k, w⟩ := p
    by_cases hk : k = key
    · subst hk
      rw [lookupKey, if_pos rfl] at hl
      obtain rfl : w = d := by injection hl
      rw [List.filter_cons, hq]
      simp [lookupKey]
    · rw [lookupKey, if_neg hk] at hl
      have tail := ih hl
      rw [List.filter_cons]
      cases hkeep : q (k, w) with
      | true => simpa [lookupKey, hk] using tail
      | false => simpa using tail

end SweepLemmas

/-! ## Unfolding lemmas for the API operations -/

section ApiLemmas

variable {K V : Type} [DecidableEq K]

theorem Write_eq_none {now entries : Int} {z : mainData K V} {key : K} {value : V}
    {ttl : Int} (h : z.functions key = []) :
    Write now entries z key value ttl = none := by
  unfold Write
  rw [h]

theorem Write_eq_some {now entries : Int} {z : mainData K V} {key : K} {value : V}
    {ttl : Int} {b : Nat} {rest : Bytes} (h : z.functions key = b :: rest) :
    Write now entries z key value ttl =
      some { z with
             data := Function.update z.data b
               (writePart now entries key value ttl (z.data b)) } := by
  unfold Write
  rw [h]

theorem Read_eq_of_empty {z : mainData K V} {key : K} (h : z.functions key = []) :
    Read z key = .keyNotFound := by
  unfold Read
  rw [h]

theorem Read_eq_of_some {z : mainData K V} {key : K} {b : Nat} {rest : Bytes}
    {d : data V} (h : z.functions key = b :: rest)
    (hl : lookupKey key (z.data b).dataSets = some d) :
    Read z key = .ok d.data := by
  have hred : Read z key = match lookupKey key (z.data b).dataSets with
    | some v => ReadResult.ok v.data
    | none => ReadResult.keyNotFound := by
    unfold Read
    rw [h]
  rw [hred, hl]

theorem Read_eq_of_none {z : mainData K V} {key : K} {b : Nat} {rest : Bytes}
    (h : z.functions key = b :: rest)
    (hl : lookupKey key (z.data b).dataSets = none) :
    Read z key = .keyNotFound := by
  have hred : Read z key = match lookupKey key (z.data b).dataSets with
    | some v => ReadResult.ok v.data
    | none => ReadResult.keyNotFound := by
    unfold Read
    rw [h]
  rw [hred, hl]

/-- At capacity (`entries ≤ keys`), `writePart` leaves the partition
untouched. -/
theorem writePart_at_capacity {now entries : Int} {key : K} {value : V} {ttl : Int}
    {n : ttlManagement K V} (h : entries ≤ n.keys) :
    writePart now entries key value ttl n = n := by
  unfold writePart
  rw [if_neg (by omega)]

/-- At capacity, `Write` returns the namespace unchanged: the write is
dropped silently, with no error and no eviction. -/
theorem Write_at_capacity {now entries : Int} {z : mainData K V} {key : K} {value : V}
    {ttl : Int} {b : Nat} {rest : Bytes} (h : z.functions key = b :: rest)
    (hcap : entries ≤ (z.data b).keys) :
    Write now entries z key value ttl = some z := by
  rw [Write_eq_some h, writePart_at_capacity hcap, Function.update_eq_self]

end ApiLemmas

/-! ## The per-partition invariant and its preservation -/

section Invariant

variable {K V : Type} [DecidableEq K]

theorem inv_init (entries : Int) (k : K → Bytes) : Inv entries (InitCache K V k) := by
  intro b
  refine ⟨by simp [InitCache, nodupKeys], by simp [InitCache], ?_⟩
  simp only [InitCache]
  exact le_max_right _ _

theorem inv_write {entries now : Int} {z z' : mainData K V} {key : K} {value : V}
    {ttl : Int} (hw : Write now entries z key value ttl = some z')
    (hinv : Inv entries z) : Inv entries z' := by
  cases hser : z.functions key with
  | nil => rw [Write_eq_none hser] at hw; cases hw
  | cons b rest =>
    rw [Write_eq_some hser] at hw
    obtain rfl : _ = z' := by injection hw
    intro b'
    by_cases hb : b' = b
    · subst hb
      simp only [Function.update_same]
      obtain ⟨hnd, hlen, hcap⟩ := hinv b'
      unfold writePart
      by_cases hlt : (z.data b').keys < entries
      · rw [if_pos hlt]
        refine ⟨nodupKeys_insertKey hnd, ?_, ?_⟩
        · have := length_insertKey_le key
            { setTime := now, ttl := ttl, data := value } (z.data b').dataSets
          simp only
          push_cast
          omega
        · have h1 : entries ≤ max entries 0 := le_max_left _ _
          simp only
          omega
      · rw [if_neg hlt]
        exact ⟨hnd, hlen, hcap⟩
    · simp only [Function.update_noteq hb]
      exact hinv b'

theorem inv_sweep {entries now : Int} {z : mainData K V} (hinv : Inv entries z) :
    Inv entries (expire now z) := by
  intro b
  obtain ⟨hnd, hlen, hcap⟩ := hinv b
  obtain ⟨hds, hk⟩ := sweepPart_spec now hnd
  have hsub : ((z.data b).dataSets.filter (fun p => ! isExpired now p)).Sublist
      (z.data b).dataSets := List.filter_sublist _
  refine ⟨?_, ?_, ?_⟩
  · show nodupKeys (sweepPart now (z.data b)).dataSets
    rw [hds]
    exact List.Nodup.sublist (hsub.map Prod.fst) hnd
  · show ((sweepPart now (z.data b)).dataSets.length : Int) ≤ (sweepPart now (z.data b)).keys
    rw [hds, hk]
    have hsplit := List.length_eq_length_filter_add (l := (z.data b).dataSets)
      (isExpired now)
    have hfe : ((z.data b).dataSets.filter (fun p => ! isExpired now p)).length =
        ((z.data b).dataSets.filter (fun p => ! isExpired now p)).length := rfl
    have hsplit' : (z.data b).dataSets.length =
        ((z.data b).dataSets.filter (isExpired now)).length +
        ((z.data b).dataSets.filter (fun p => ! isExpired now p)).length := hsplit
    push_cast
    omega
  · show (sweepPart now (z.data b)).keys ≤ max entries 0
    rw [hk]
    have : (0 : Int) ≤ ((z.data b).dataSets.filter (isExpired now)).length := by positivity
    omega

/-- Every reachable state satisfies the invariant. -/
theorem reachable_inv {entries : Int} {z : mainData K V} (h : Reachable entries z) :
    Inv entries z := by
  induction h with
  | init k => exact inv_init entries k
  | write s s' now key value ttl _ hw ih => exact inv_write hw ih
  | sweep s now _ ih => exact inv_sweep ih

end Invariant

/-! ## The claims -/

/-- Claim C1, counterexample: with capacity 2, key 1 is present in
partition 0 of `c1s1` and the counter is 1, strictly below capacity;
overwriting key 1 increments the counter to 2 instead of leaving it
unchanged, refuting "the live-entry count is incremented only when the
key was not already present". -/
theorem C1_counterexample :
    Write 0 2 c1s0 1 10 100 = some c1s1 ∧
    lookupKey 1 (c1s1.data 0).dataSets = some { setTime := 0, ttl := 100, data := 10 } ∧
    (c1s1.data 0).keys = 1 ∧ (c1s1.data 0).keys < 2 ∧
    Write 5 2 c1s1 1 20 100 = some c1s2 ∧
    (c1s2.data 0).keys = 2 :=
  ⟨rfl, by decide, by decide, by decide, rfl, by decide⟩

/-- Claim C1 as amended: a `Write` on a partition whose counter is
below capacity stores the entry with insertion time `now` (inserting or
overwriting), increments the live-entry counter unconditionally — also
when the key was already present — and leaves every other partition and
the serializer untouched. -/
theorem C1_write_below_capacity {K V : Type} [DecidableEq K] {now entries ttl : Int}
    {z : mainData K V} {key : K} {value : V} {b : Nat} {rest : Bytes}
    (hser : z.functions key = b :: rest) (hcap : (z.data b).keys < entries) :
    ∃ z', Write now entries z key value ttl = some z' ∧
      (z'.data b).dataSets =
        insertKey key { setTime := now, ttl := ttl, data := value } (z.data b).dataSets ∧
      (z'.data b).keys = (z.data b).keys + 1 ∧
      (∀ b' : Nat, b' ≠ b → z'.data b' = z.data b') ∧
      z'.functions = z.functions := by
  refine ⟨_, Write_eq_some hser, ?_, ?_, ?_, rfl⟩
  · show (Function.update z.data b (writePart now entries key value ttl (z.data b)) b).dataSets
      = _
    rw [Function.update_same]
    simp [writePart, hcap]
  · show (Function.update z.data b (writePart now entries key value ttl (z.data b)) b).keys
      = _
    rw [Function.update_same]
    simp [writePart, hcap]
  · intro b' hb
    show Function.update z.data b (writePart now entries key value ttl (z.data b)) b' = _
    rw [Function.update_noteq hb]

/-- Witness for the amended C1 at the concrete empty namespace `c1s0`
with capacity 2. -/
theorem C1_write_below_capacity_witness :
    c1s0.functions 1 = 0 :: ([] : Bytes) ∧ (c1s0.data 0).keys < 2 ∧
    (∃ z', Write 0 2 c1s0 1 10 100 = some z' ∧
      (z'.data 0).dataSets =
        insertKey 1 { setTime := 0, ttl := 100, data := 10 } (c1s0.data 0).dataSets ∧
      (z'.data 0).keys = (c1s0.data 0).keys + 1 ∧
      (∀ b' : Nat, b' ≠ 0 → z'.data b' = c1s0.data b') ∧
      z'.functions = c1s0.functions) :=
  ⟨rfl, by decide, C1_write_below_capacity rfl (by decide)⟩

/-- Claim C2, counterexample: the entry for key 1 in `c1s1` was written
at time 0 with ttl 100, so at time 200 it is expired and no sweep has
run; yet `Read` returns the stored value 10, not `KeyNotFound`, because
the expiration re-check in `Read` is commented out in the source. -/
theorem C2_counterexample :
    Write 0 2 c1s0 1 10 100 = some c1s1 ∧
    ((0 : Int) + 100 < 200) ∧
    Read c1s1 1 = ReadResult.ok 10 ∧
    Read c1s1 1 ≠ ReadResult.keyNotFound :=
  ⟨rfl, by decide, by decide, by decide⟩

/-- Claim C2 as amended: `Read` is a pure map lookup that never
consults the clock. A key bound in its partition's map is returned even
when its entry is already expired; `KeyNotFound` is returned exactly
when the key is absent from the map (never written, or already swept). -/
theorem C2_read_is_map_lookup {K V : Type} [DecidableEq K] {z : mainData K V} {key : K}
    {b : Nat} {rest : Bytes} (hser : z.functions key = b :: rest) :
    (∀ d : data V, lookupKey key (z.data b).dataSets = some d → Read z key = .ok d.data) ∧
    (lookupKey key (z.data b).dataSets = none → Read z key = .keyNotFound) :=
  ⟨fun _ hd => Read_eq_of_some hser hd, fun h => Read_eq_of_none hser h⟩

/-- Witness for the amended C2 at `c1s1`: key 1 is bound and `Read`
returns its value. -/
theorem C2_read_is_map_lookup_witness :
    c1s1.functions 1 = 0 :: ([] : Bytes) ∧
    lookupKey 1 (c1s1.data 0).dataSets = some { setTime := 0, ttl := 100, data := 10 } ∧
    Read c1s1 1 = ReadResult.ok 10 :=
  ⟨rfl, by decide, (C2_read_is_map_lookup rfl).1 { setTime := 0, ttl := 100, data := 10 }
    (by decide)⟩

/-- Claim C8, counterexample: with a serializer returning the empty
byte sequence, `Write` indexes `k[0]` out of bounds and panics
(modelled as `none`); in particular it is not the claimed total no-op
on the namespace. -/
theorem C8_counterexample :
    Write 0 2 (InitCache Nat Nat serE) 1 10 100 = none ∧
    Write 0 2 (InitCache Nat Nat serE) 1 10 100 ≠ some (InitCache Nat Nat serE) :=
  ⟨rfl, fun h => Option.noConfusion h⟩

/-- Claim C8 as amended: for every key whose serialization is the empty
byte sequence, `Write` panics on the out-of-bounds index `k[0]`
(modelled as returning `none`); there is no deterministic rejection
guard in `Write`. -/
theorem C8_empty_serialization_write {K V : Type} [DecidableEq K]
    {now entries ttl : Int} {z : mainData K V} {key : K} {value : V}
    (h : z.functions key = []) :
    Write now entries z key value ttl = none :=
  Write_eq_none h

/-- Witness for the amended C8 with the degenerate serializer `serE`. -/
theorem C8_empty_serialization_write_witness :
    serE 1 = [] ∧ Write 0 2 (InitCache Nat Nat serE) 1 10 100 = none :=
  ⟨rfl, C8_empty_serialization_write rfl⟩

/-- Claim C9: for every key whose serialization is the empty byte
sequence, `Read` returns `KeyNotFound` before touching any partition,
whatever the partitions contain. -/
theorem C9_read_empty_serialization {K V : Type} [DecidableEq K] {z : mainData K V}
    {key : K} (h : z.functions key = []) : Read z key = .keyNotFound :=
  Read_eq_of_empty h

/-- Witness for C9 at `c9s`, whose partition 0 even holds a binding for
the requested key: the empty serialization still yields `KeyNotFound`. -/
theorem C9_read_empty_serialization_witness :
    c9s.functions 1 = [] ∧
    lookupKey 1 (c9s.data 0).dataSets = some { setTime := 0, ttl := 100, data := 42 } ∧
    Read c9s 1 = ReadResult.keyNotFound :=
  ⟨rfl, by decide, C9_read_empty_serialization rfl⟩

/-- Claim C3: in every reachable state of a namespace with nonnegative
capacity, every partition's map holds at most `capacity` live entries;
and once a partition's counter has reached capacity, a `Write` for a
key not present in its map is silently dropped — no error (modelled:
not a panic) and no change to any entry. -/
theorem C3_capacity_bound {K V : Type} [DecidableEq K] {entries : Int} {z : mainData K V}
    (hreach : Reachable entries z) (hpos : 0 ≤ entries) :
    (∀ b : Nat, ((z.data b).dataSets.length : Int) ≤ entries) ∧
    (∀ (now : Int) (key : K) (value : V) (ttl : Int) (b : Nat) (rest : Bytes),
      z.functions key = b :: rest →
      lookupKey key (z.data b).dataSets = none →
      entries ≤ (z.data b).keys →
      Write now entries z key value ttl = some z) := by
  constructor
  · intro b
    obtain ⟨-, hlen, hcap⟩ := reachable_inv hreach b
    rw [max_eq_left hpos] at hcap
    omega
  · intro now key value ttl b rest hser _ hcap
    exact Write_at_capacity hser hcap

/-- Witness for C3 at the reachable state `c1s2` (capacity 2): the map
bound holds and a write of the fresh key 3 at full counter is a no-op. -/
theorem C3_capacity_bound_witness :
    Reachable 2 c1s2 ∧ ((0 : Int) ≤ 2) ∧
    (((c1s2.data 0).dataSets.length : Int) ≤ 2 ∧
      Write 7 2 c1s2 3 30 40 = some c1s2) := by
  have hreach : Reachable 2 c1s2 :=
    .write _ _ _ _ _ _ (.write _ _ _ _ _ _ (.init ser0) rfl) rfl
  refine ⟨hreach, by decide, (C3_capacity_bound hreach (by decide)).1 0, ?_⟩
  exact (C3_capacity_bound hreach (by decide)).2 7 3 30 40 0 [] rfl (by decide) (by decide)

/-- Claim C4: one sweep pass on a well-formed partition deletes exactly
the entries whose expiration test holds — i.e. whose
`insertion_time + ttl < now` — keeping the rest, and decrements the
counter once per deleted entry; consequently a key whose current entry
satisfies `setTime + ttl < now` reads as `KeyNotFound` after a sweep at
time `now`. -/
theorem C4_sweep_removes_expired :
    (∀ (K V : Type) [DecidableEq K] (now : Int) (n : ttlManagement K V),
      nodupKeys n.dataSets →
      (sweepPart now n).dataSets = n.dataSets.filter (fun p => ! isExpired now p) ∧
      (sweepPart now n).keys =
        n.keys - ((n.dataSets.filter (isExpired now)).length : Int) ∧
      (∀ p : K × data V, isExpired now p = true ↔ p.2.setTime + p.2.ttl < now)) ∧
    (∀ (K V : Type) [DecidableEq K] (now : Int) (z : mainData K V) (key : K)
      (b : Nat) (rest : Bytes) (d : data V),
      z.functions key = b :: rest →
      nodupKeys (z.data b).dataSets →
      lookupKey key (z.data b).dataSets = some d →
      d.setTime + d.ttl < now →
      Read (expire now z) key = .keyNotFound) := by
  constructor
  · intro K V _ now n hnd
    obtain ⟨h1, h2⟩ := sweepPart_spec now hnd
    refine ⟨h1, h2, ?_⟩
    intro p
    simp only [isExpired, decide_eq_true_eq]
    omega
  · intro K V _ now z key b rest d hser hnd hl hexp
    have hq : (fun p => ! isExpired now p) (key, d) = false := by
      simp only [isExpired, Bool.not_eq_false', decide_eq_true_eq]
      omega
    have hnone := lookupKey_filter_none (q := fun p => ! isExpired now p) hnd hl hq
    refine @Read_eq_of_none K V _ (expire now z) key b rest ?_ ?_
    · exact hser
    · show lookupKey key (sweepPart now (z.data b)).dataSets = none
      rw [(sweepPart_spec now hnd).1]
      exact hnone

/-- Witness for C4 at `c1s2`: the overwritten entry of key 1 (written
at time 5 with ttl 100) is expired at time 200, and a sweep at time 200
makes the subsequent read miss. -/
theorem C4_sweep_removes_expired_witness :
    c1s2.functions 1 = 0 :: ([] : Bytes) ∧
    nodupKeys (c1s2.data 0).dataSets ∧
    lookupKey 1 (c1s2.data 0).dataSets = some { setTime := 5, ttl := 100, data := 20 } ∧
    ((5 : Int) + 100 < 200) ∧
    Read (expire 200 c1s2) 1 = ReadResult.keyNotFound :=
  ⟨rfl, by decide, by decide, by decide,
    C4_sweep_removes_expired.2 Nat Nat 200 c1s2 1 0 []
      { setTime := 5, ttl := 100, data := 20 } rfl (by decide) (by decide) (by decide)⟩

/-- Claim C5: writing a key with non-empty serialization and positive
ttl into a partition below capacity and reading it back — before any
sweep — returns exactly the value written. -/
theorem C5_round_trip {K V : Type} [DecidableEq K] {now entries ttl : Int}
    {z : mainData K V} {key : K} {value : V} {b : Nat} {rest : Bytes}
    (hser : z.functions key = b :: rest) (hcap : (z.data b).keys < entries)
    (httl : 0 < ttl) :
    ∃ z', Write now entries z key value ttl = some z' ∧ Read z' key = .ok value := by
  refine ⟨_, Write_eq_some hser, ?_⟩
  refine @Read_eq_of_some K V _
      { z with data := Function.update z.data b (writePart now entries key value ttl (z.data b)) }
      key b rest { setTime := now, ttl := ttl, data := value } ?_ ?_
  · exact hser
  · show lookupKey key
      (Function.update z.data b (writePart now entries key value ttl (z.data b)) b).dataSets
      = _
    rw [Function.update_same]
    unfold writePart
    rw [if_pos hcap]
    exact lookupKey_insertKey_self key _ _

/-- Witness for C5 at the empty namespace `c1s0` with capacity 2. -/
theorem C5_round_trip_witness :
    c1s0.functions 1 = 0 :: ([] : Bytes) ∧ (c1s0.data 0).keys < 2 ∧ ((0 : Int) < 100) ∧
    (∃ z', Write 0 2 c1s0 1 10 100 = some z' ∧ Read z' 1 = ReadResult.ok 10) :=
  ⟨rfl, by decide, by decide, C5_round_trip rfl (by decide) (by decide)⟩

/-- Claim C6: a `Write` to a partition whose counter has reached
capacity, for a key not in its map, returns the namespace completely
unchanged (same maps, entries, timestamps, counters); and in the spec's
scenario with capacity 2 and all keys in partition 5, the third
distinct key is dropped while the first two remain retrievable and
exactly two keys are stored. -/
theorem C6_overflow_isolation :
    (∀ (K V : Type) [DecidableEq K] (now entries : Int) (z : mainData K V)
      (key : K) (value : V) (ttl : Int) (b : Nat) (rest : Bytes),
      z.functions key = b :: rest →
      lookupKey key (z.data b).dataSets = none →
      entries ≤ (z.data b).keys →
      Write now entries z key value ttl = some z) ∧
    (ser5 1 = [5] ∧ ser5 2 = [5] ∧ ser5 3 = [5] ∧
      Write 0 2 c6s0 1 11 100 = some c6s1 ∧
      Write 1 2 c6s1 2 22 100 = some c6s2 ∧
      Write 2 2 c6s2 3 33 100 = some c6s2 ∧
      Read c6s2 3 = ReadResult.keyNotFound ∧
      Read c6s2 1 = ReadResult.ok 11 ∧
      Read c6s2 2 = ReadResult.ok 22 ∧
      (c6s2.data 5).dataSets.length = 2) := by
  constructor
  · intro K V _ now entries z key value ttl b rest hser _ hcap
    exact Write_at_capacity hser hcap
  · exact ⟨rfl, rfl, rfl, rfl, rfl, Write_at_capacity rfl (by decide), by decide,
      by decide, by decide, by decide⟩

/-- Witness for C6: a fourth distinct key aimed at the full partition 5
of `c6s2` leaves the namespace unchanged. -/
theorem C6_overflow_isolation_witness :
    c6s2.functions 4 = 5 :: ([] : Bytes) ∧
    lookupKey 4 (c6s2.data 5).dataSets = none ∧
    ((2 : Int) ≤ (c6s2.data 5).keys) ∧
    Write 9 2 c6s2 4 44 100 = some c6s2 :=
  ⟨rfl, by decide, by decide,
    C6_overflow_isolation.1 Nat Nat 9 2 c6s2 4 44 100 5 [] rfl (by decide) (by decide)⟩

/-- Claim C7: in every reachable state the live-entry counter of every
partition is at least its map's size; and at the concrete reachable
state `c1s2` (reached by writing key 1 twice with capacity 2) the
counter 2 strictly exceeds the single stored entry, so the partition
rejects the fresh key 2 while holding fewer than `capacity` entries. -/
theorem C7_counter_dominates_size :
    (∀ (K V : Type) [DecidableEq K] (entries : Int) (z : mainData K V),
      Reachable entries z →
      ∀ b : Nat, ((z.data b).dataSets.length : Int) ≤ (z.data b).keys) ∧
    (Reachable 2 c1s2 ∧
      (c1s2.data 0).keys = 2 ∧
      (c1s2.data 0).dataSets.length = 1 ∧
      ((c1s2.data 0).dataSets.length : Int) < 2 ∧
      Write 7 2 c1s2 2 99 100 = some c1s2) := by
  constructor
  · intro K V _ entries z hreach b
    exact (reachable_inv hreach b).2.1
  · refine ⟨.write _ _ _ _ _ _ (.write _ _ _ _ _ _ (.init ser0) rfl) rfl,
      by decide, by decide, by decide, ?_⟩
    exact Write_at_capacity rfl (by decide)

/-- Witness for C7 at the reachable state `c1s2`. -/
theorem C7_counter_dominates_size_witness :
    Reachable 2 c1s2 ∧
    ((c1s2.data 0).dataSets.length : Int) ≤ (c1s2.data 0).keys := by
  have hreach : Reachable 2 c1s2 :=
    .write _ _ _ _ _ _ (.write _ _ _ _ _ _ (.init ser0) rfl) rfl
  exact ⟨hreach, C7_counter_dominates_size.1 Nat Nat 2 c1s2 hreach 0⟩

/-- Claim C10: a key collected by the sweep's scan phase at time `now`
can be overwritten by a `Write` landing between the two phases; the
fresh entry — not expired at scan time, as the unused freshness
hypothesis records — is present after the write, yet the delete phase
removes it unconditionally, so the freshly written value is evicted and
the subsequent read misses. -/
theorem C10_scan_delete_race :
    ∀ (K V : Type) [DecidableEq K] (now now' entries ttl : Int) (z z' : mainData K V)
      (key : K) (value : V) (b : Nat) (rest : Bytes),
      z.functions key = b :: rest →
      key ∈ expiredKeys now (z.data b).dataSets →
      Write now' entries z key value ttl = some z' →
      (z.data b).keys < entries →
      isExpired now (key, ({ setTime := now', ttl := ttl, data := value } : data V))
        = false →
      lookupKey key (z'.data b).dataSets
          = some { setTime := now', ttl := ttl, data := value } ∧
      Read (deletePhase (expiredKeys now (z.data b).dataSets) b z') key
          = .keyNotFound := by
  intro K V _ now now' entries ttl z z' key value b rest hser hcol hw hcap _
  rw [Write_eq_some hser] at hw
  obtain rfl : _ = z' := by injection hw
  constructor
  · show lookupKey key
      (Function.update z.data b (writePart now' entries key value ttl (z.data b)) b).dataSets
      = _
    rw [Function.update_same]
    unfold writePart
    rw [if_pos hcap]
    exact lookupKey_insertKey_self key _ _
  · refine @Read_eq_of_none K V _
      (deletePhase (expiredKeys now (z.data b).dataSets) b
        { z with
          data := Function.update z.data b (writePart now' entries key value ttl (z.data b)) })
      key b rest ?_ ?_
    · exact hser
    · simp only [deletePhase, Function.update_same, deleteKeys_eq]
      exact lookupKey_eraseAll_of_mem _ hcol

/-- Witness for C10: key 1 of `c1s1` (written at time 0, ttl 100) is
collected by a scan at time 200; a fresh overwrite at time 205 with ttl
50 lands between the phases and is evicted by the delete phase. -/
theorem C10_scan_delete_race_witness :
    c1s1.functions 1 = 0 :: ([] : Bytes) ∧
    (1 : Nat) ∈ expiredKeys 200 (c1s1.data 0).dataSets ∧
    Write 205 2 c1s1 1 99 50 = some c10s2 ∧
    (c1s1.data 0).keys < 2 ∧
    isExpired 200 ((1 : Nat), ({ setTime := 205, ttl := 50, data := 99 } : data Nat))
      = false ∧
    (lookupKey 1 (c10s2.data 0).dataSets = some { setTime := 205, ttl := 50, data := 99 } ∧
      Read (deletePhase (expiredKeys 200 (c1s1.data 0).dataSets) 0 c10s2) 1
        = ReadResult.keyNotFound) :=
  ⟨rfl, by decide, rfl, by decide, by decide,
    C10_scan_delete_race Nat Nat 200 205 2 50 c1s1 c10s2 1 99 0 [] rfl (by decide) rfl
      (by decide) (by decide)⟩

end ttlcache
